import Mathlib

/-!
# PromptPro vault engine: a shallow embedding with verified properties

The repository `promptpro` ships a Python binding surface
(`src/promptpro/api.py`, `src/promptpro/__init__.py`, `src/promptpro/cli.py`)
over a Rust core that implements the vault engine (version-chain storage,
diff/snapshot encoding, tag tables, encrypted persistence).  The Rust core is
not part of the source tree, so the engine below is modelled from the
specification (each such definition says so in its doc comment); the Python
layer (`PromptManager`, `run_cli`, the singleton accessor) is embedded
directly from the Python source, which is authoritative.

Python strings are modelled as `List Char` (`Str`), machine-level blobs as
`List Nat`, and every fallible operation returns `Except Err α` over the
spec's error taxonomy (§7).
-/

namespace PromptPro

/-- Python strings (prompt contents, keys, tags, paths) are modelled as
lists of characters. -/
abbrev Str := List Char

/-- Modelled from the spec (§7 Error handling design): the error taxonomy of
the core.  `NotFound` covers key/version/tag absence, the rest are as named
in the taxonomy. -/
inductive Err where
  | notFound
  | alreadyExists
  | invalidSelector
  | corruptDelta
  | corruptFile
  | authenticationFailed
  | unsupportedFormat
  | ioFailure
deriving DecidableEq, Repr

/-! ## Diff codec (spec §4.2)

Modelled from the spec: the Rust diff codec is absent from `src/`; §4.2 only
fixes its contract (`encode` produces either a full snapshot or a delta
against the parent, `decode` reverses it, snapshot is forced for the first
version and chosen over a delta whose payload would exceed ~70% of the full
content).  We realise the contract with a concrete byte-level delta: the
delta of `new` against `parent` keeps the length of their longest common
prefix, the length of the longest common suffix of the remainders, and the
replacement middle of `new`. -/

/-- Length of the longest common prefix of two character lists. -/
def lcp : Str → Str → Nat
  | a :: as, b :: bs => if a = b then lcp as bs + 1 else 0
  | _, _ => 0

/-- Modelled from the spec (§4.2): a stored payload is either a full
snapshot of the content or a delta against the parent's content, given by
the common prefix length, common suffix length and the replacement middle. -/
inductive DiffPayload where
  | snap (content : Str)
  | delta (pre suf : Nat) (mid : Str)
deriving DecidableEq, Repr

/-- Whether a payload is stored as a full snapshot (the `is_snapshot` /
`snapshot` field of a version record). -/
def DiffPayload.isSnap : DiffPayload → Bool
  | .snap _ => true
  | .delta _ _ _ => false

/-- Modelled from the spec (§4.2): the raw delta of `new` against
`parent` — longest common prefix, then longest common suffix of the
remainders, then the middle of `new` that replaces the middle of
`parent`. -/
def diffDelta (parent new : Str) : DiffPayload :=
  let p := lcp parent new
  let pa := parent.drop p
  let na := new.drop p
  let s := lcp pa.reverse na.reverse
  .delta p s (na.take (na.length - s))

/-- Modelled from the spec (§4.2): `encode` policy.  The first version (no
parent) is always a snapshot; otherwise a delta is computed and a snapshot
is chosen instead when the delta's payload would exceed 70% of the full
content size (the spec's recommended threshold). -/
def diffEncode (parent new : Str) : DiffPayload :=
  match diffDelta parent new with
  | .delta p s mid => if 10 * mid.length > 7 * new.length then .snap new else .delta p s mid
  | pl => pl

/-- Modelled from the spec (§4.2): apply a delta to the parent content;
fails with `CorruptDelta` when the delta cannot be applied to the given
parent (its claimed common prefix and suffix overlap the parent's
length). -/
def diffApply (parent : Str) (p s : Nat) (mid : Str) : Except Err Str :=
  if p + s ≤ parent.length then
    .ok (parent.take p ++ mid ++ parent.drop (parent.length - s))
  else
    .error .corruptDelta

/-- Modelled from the spec (§4.2): `decode` — a snapshot is its own content,
a delta is applied to the parent's reconstructed content. -/
def decodePayload (parent : Str) : DiffPayload → Except Err Str
  | .snap c => .ok c
  | .delta p s mid => diffApply parent p s mid

theorem lcp_le_left (a b : Str) : lcp a b ≤ a.length := by
  induction a generalizing b with
  | nil => simp [lcp]
  | cons x xs ih =>
    cases b with
    | nil => simp [lcp]
    | cons y ys =>
      by_cases h : x = y
      · simpa [lcp, h] using Nat.succ_le_succ (ih ys)
      · simp [lcp, h]

theorem lcp_le_right (a b : Str) : lcp a b ≤ b.length := by
  induction a generalizing b with
  | nil => simp [lcp]
  | cons x xs ih =>
    cases b with
    | nil => simp [lcp]
    | cons y ys =>
      by_cases h : x = y
      · simpa [lcp, h] using Nat.succ_le_succ (ih ys)
      · simp [lcp, h]

theorem take_lcp_eq (a b : Str) : a.take (lcp a b) = b.take (lcp a b) := by
  induction a generalizing b with
  | nil => simp [lcp]
  | cons x xs ih =>
    cases b with
    | nil => simp [lcp]
    | cons y ys =>
      by_cases h : x = y
      · simp [lcp, h, List.take_succ_cons, ih ys]
      · simp [lcp, h]

/-- The common-suffix part: dropping all but the last `s` characters agrees
between two lists whose reversals share a prefix of length `s`. -/
theorem drop_sub_eq_of_reverse_take_eq (a b : Str) (s : Nat)
    (hsa : s ≤ a.length) (hsb : s ≤ b.length)
    (h : a.reverse.take s = b.reverse.take s) :
    a.drop (a.length - s) = b.drop (b.length - s) := by
  have ha : (a.drop (a.length - s)).reverse = a.reverse.take s := by
    rw [List.reverse_drop]
    congr 1
    omega
  have hb : (b.drop (b.length - s)).reverse = b.reverse.take s := by
    rw [List.reverse_drop]
    congr 1
    omega
  have : (a.drop (a.length - s)).reverse = (b.drop (b.length - s)).reverse := by
    rw [ha, hb, h]
  simpa using congrArg List.reverse this

/-- Losslessness of the raw delta: applying `diffDelta parent new` to
`parent` reconstructs `new` exactly. -/
theorem decodePayload_diffDelta (parent new : Str) :
    decodePayload parent (diffDelta parent new) = .ok new := by
  unfold diffDelta decodePayload diffApply
  simp only
  set p := lcp parent new with hp
  set pa := parent.drop p with hpa
  set na := new.drop p with hna
  set s := lcp pa.reverse na.reverse with hs
  have hp_le : p ≤ parent.length := lcp_le_left _ _
  have hp_le' : p ≤ new.length := lcp_le_right _ _
  have hs_le : s ≤ pa.length := by
    simpa using lcp_le_left pa.reverse na.reverse
  have hs_le' : s ≤ na.length := by
    simpa using lcp_le_right pa.reverse na.reverse
  have hpa_len : pa.length = parent.length - p := by
    simp [hpa]
  have hna_len : na.length = new.length - p := by
    simp [hna]
  have hcond : p + s ≤ parent.length := by omega
  rw [if_pos hcond]
  congr 1
  have htake : parent.take p = new.take p := take_lcp_eq parent new
  have hsuffix : pa.drop (pa.length - s) = na.drop (na.length - s) :=
    drop_sub_eq_of_reverse_take_eq pa na s hs_le hs_le'
      (by rw [take_lcp_eq pa.reverse na.reverse])
  have hdrop_parent : parent.drop (parent.length - s) = pa.drop (pa.length - s) := by
    have hdd : (parent.drop p).drop (pa.length - s) = parent.drop (p + (pa.length - s)) :=
      List.drop_drop (pa.length - s) p parent
    rw [hpa, hdd]
    congr 1
    omega
  calc parent.take p ++ na.take (na.length - s) ++ parent.drop (parent.length - s)
      = new.take p ++ (na.take (na.length - s) ++ na.drop (na.length - s)) := by
        rw [htake, hdrop_parent, hsuffix, List.append_assoc]
    _ = new.take p ++ na := by rw [List.take_append_drop]
    _ = new := by rw [hna]; exact List.take_append_drop p new

/-- Losslessness of the encode policy: whatever `diffEncode` chooses
(snapshot or delta), decoding against the same parent reconstructs the new
content exactly. -/
theorem decodePayload_diffEncode (parent new : Str) :
    decodePayload parent (diffEncode parent new) = .ok new := by
  have h := decodePayload_diffDelta parent new
  unfold diffEncode
  cases hd : diffDelta parent new with
  | snap c =>
    rw [hd] at h
    simpa [decodePayload] using h
  | delta p s mid =>
    rw [hd] at h
    by_cases hc : 10 * mid.length > 7 * new.length
    · simp [hc, decodePayload]
    · simpa [hc] using h

/-! ## Version records, entries and the vault (spec §3, §4.3–§4.5)

Modelled from the spec: the Rust vault engine is absent from `src/`.  A
`VersionRecord` carries the fields of §3 (the `snapshot` boolean is derived
from the payload's constructor, and the `tags` view is computed from the
canonical tag table when building `history` output).  The Content Store of
§4.1 (append-only, `get (put x) = x`, dedup by hash) is folded into the
records owning their payloads directly: the claims under verification never
observe the store except through this lossless indirection.  Timestamps are
modelled by a logical clock in the vault, incremented on each mutation. -/

/-- Modelled from the spec (§3 ContentHash): a digest function on content;
equal content yields equal hash.  The collision-negligible fixed-size
digest is modelled as a simple polynomial hash. -/
def contentHash (s : Str) : Nat :=
  s.foldl (fun h c => h * 131 + c.toNat + 1) 7

/-- Modelled from the spec (§3 VersionRecord): one stored revision of a
key.  `payload` is what the Diff Codec produced; the `is_snapshot` flag of
the spec is `payload.isSnap`. -/
structure VersionRecord where
  key : Str
  version : Nat
  timestamp : Nat
  parent : Option Nat
  message : Option Str
  object_hash : Nat
  payload : DiffPayload
deriving DecidableEq, Repr

/-- The record view returned by `history` (the exposed `VersionRecord`
fields of spec §6: key, version, timestamp, parent, message, object_hash,
snapshot, tags). -/
structure VersionMeta where
  key : Str
  version : Nat
  timestamp : Nat
  parent : Option Nat
  message : Option Str
  object_hash : Nat
  snapshot : Bool
  tags : List Str
deriving DecidableEq, Repr

/-- Modelled from the spec (§3 VaultEntry): one per key — its ordered
version records (oldest first) and its canonical tag table (tag name →
version number). -/
structure VaultEntry where
  records : List VersionRecord
  tags : List (Str × Nat)
deriving DecidableEq, Repr

/-- Modelled from the spec (§3 Vault): the top-level aggregate mapping keys
to entries, plus a logical clock supplying timestamps. -/
structure Vault where
  entries : List (Str × VaultEntry)
  clock : Nat
deriving DecidableEq, Repr

/-- The empty vault (spec §3: "created empty"). -/
def emptyVault : Vault := ⟨[], 0⟩

/-- First-match lookup in the vault's key → entry association list. -/
def lookupE : List (Str × VaultEntry) → Str → Option VaultEntry
  | [], _ => none
  | (k', e) :: rest, k => if k' = k then some e else lookupE rest k

/-- Remove every binding of a key from the entry list. -/
def eraseE : List (Str × VaultEntry) → Str → List (Str × VaultEntry)
  | [], _ => []
  | (k', e) :: rest, k => if k' = k then eraseE rest k else (k', e) :: eraseE rest k

/-- Bind a key to an entry, replacing any previous binding. -/
def insertE (l : List (Str × VaultEntry)) (k : Str) (e : VaultEntry) :
    List (Str × VaultEntry) :=
  (k, e) :: eraseE l k

/-- First-match lookup in a tag table. -/
def lookupTag : List (Str × Nat) → Str → Option Nat
  | [], _ => none
  | (t', n) :: rest, t => if t' = t then some n else lookupTag rest t

/-- Remove a tag's binding from a tag table. -/
def removeTag : List (Str × Nat) → Str → List (Str × Nat)
  | [], _ => []
  | (t', n) :: rest, t => if t' = t then removeTag rest t else (t', n) :: removeTag rest t

/-- Point a tag at a version, overwriting any prior mapping for that tag
(spec §4.4: tags are mutable pointers). -/
def setTag (tags : List (Str × Nat)) (t : Str) (n : Nat) : List (Str × Nat) :=
  (t, n) :: removeTag tags t

/-- The denormalized `tags` view of one record: every tag name currently
pointing at the given version number (spec §3: canonical source is the Tag
Table). -/
def tagsFor (tags : List (Str × Nat)) (v : Nat) : List Str :=
  (tags.filter (fun p => p.2 = v)).map (fun p => p.1)

/-- Build the exposed `history` view of a stored record. -/
def metaOf (tags : List (Str × Nat)) (r : VersionRecord) : VersionMeta :=
  { key := r.key
    version := r.version
    timestamp := r.timestamp
    parent := r.parent
    message := r.message
    object_hash := r.object_hash
    snapshot := r.payload.isSnap
    tags := tagsFor tags r.version }

/-- Modelled from the spec (§4.2–§4.3): reconstruct the full content of the
record at index `i` (version `i + 1`) by replaying from the nearest
preceding snapshot forward through deltas.  A delta in the first position
has no parent and fails with `CorruptDelta`; a missing index fails with
`NotFound`. -/
def reconIdx (recs : List VersionRecord) : Nat → Except Err Str
  | 0 =>
    match recs[0]? with
    | none => .error .notFound
    | some r =>
      match r.payload with
      | .snap c => .ok c
      | .delta _ _ _ => .error .corruptDelta
  | j + 1 =>
    match recs[j + 1]? with
    | none => .error .notFound
    | some r =>
      match r.payload with
      | .snap c => .ok c
      | .delta p s mid => (reconIdx recs j).bind fun par => diffApply par p s mid

/-- Modelled from the spec (§4.5): the selector union type, represented as
a tagged variant as §9 recommends — `"latest"`, an explicit version number,
or a tag name. -/
inductive Selector where
  | latest
  | version (n : Nat)
  | tagName (t : Str)
deriving DecidableEq, Repr

/-- Modelled from the spec (§4.5 Vault.add): fails with `AlreadyExists` if
the key is Active, otherwise creates the key's chain with version 1 stored
as a snapshot (§4.2: no parent means always snapshot). -/
def Vault.add (v : Vault) (k c : Str) : Except Err Vault :=
  match lookupE v.entries k with
  | some _ => .error .alreadyExists
  | none =>
    let r : VersionRecord :=
      { key := k, version := 1, timestamp := v.clock, parent := none,
        message := none, object_hash := contentHash c, payload := .snap c }
    .ok { entries := insertE v.entries k ⟨[r], []⟩, clock := v.clock + 1 }

/-- Modelled from the spec (§4.3 append / §4.5 Vault.update): fails with
`NotFound` if the key is Absent/Deleted; otherwise reconstructs the current
latest content, encodes the new content against it, allocates
`version = last_version + 1` and records `parent = last_version`. -/
def Vault.update (v : Vault) (k c : Str) (msg : Option Str) : Except Err Vault :=
  match lookupE v.entries k with
  | none => .error .notFound
  | some e =>
    match e.records.length with
    | 0 => .error .notFound
    | n + 1 =>
      (reconIdx e.records n).bind fun parent =>
        let r : VersionRecord :=
          { key := k, version := n + 2, timestamp := v.clock, parent := some (n + 1),
            message := msg, object_hash := contentHash c,
            payload := diffEncode parent c }
        .ok { entries := insertE v.entries k { e with records := e.records ++ [r] },
              clock := v.clock + 1 }

/-- Modelled from the spec (§4.3 resolve / §4.5 Vault.get): resolve a
selector to a version and reconstruct its content.  Key absence, an
out-of-range version number, an empty chain for `latest`, or an unknown
tag all surface as `NotFound` (§7 taxonomy: key/version/tag absent). -/
def Vault.get (v : Vault) (k : Str) (sel : Selector) : Except Err Str :=
  match lookupE v.entries k with
  | none => .error .notFound
  | some e =>
    match sel with
    | .latest =>
      match e.records.length with
      | 0 => .error .notFound
      | n + 1 => reconIdx e.records n
    | .version n =>
      if 1 ≤ n ∧ n ≤ e.records.length then reconIdx e.records (n - 1)
      else .error .notFound
    | .tagName t =>
      match lookupTag e.tags t with
      | none => .error .notFound
      | some n =>
        if 1 ≤ n ∧ n ≤ e.records.length then reconIdx e.records (n - 1)
        else .error .notFound

/-- Modelled from the spec (§4.3 history / §4.5): the ordered sequence of
version records for a key, oldest first, with the denormalized tag view;
`NotFound` if the key is absent. -/
def Vault.history (v : Vault) (k : Str) : Except Err (List VersionMeta) :=
  match lookupE v.entries k with
  | none => .error .notFound
  | some e => .ok (e.records.map (metaOf e.tags))

/-- Modelled from the spec (§4.4 set / §4.5 Vault.tag): point a tag at a
version; fails with `NotFound` if the key is absent or the version does not
exist for the key. -/
def Vault.tag (v : Vault) (k t : Str) (n : Nat) : Except Err Vault :=
  match lookupE v.entries k with
  | none => .error .notFound
  | some e =>
    if 1 ≤ n ∧ n ≤ e.records.length then
      .ok { entries := insertE v.entries k { e with tags := setTag e.tags t n },
            clock := v.clock + 1 }
    else .error .notFound

/-- Modelled from the spec (§4.4 promote): re-point a tag at the latest
version number; fails with `NotFound` if the key is absent or has no
versions. -/
def Vault.promote (v : Vault) (k t : Str) : Except Err Vault :=
  match lookupE v.entries k with
  | none => .error .notFound
  | some e =>
    match e.records.length with
    | 0 => .error .notFound
    | n + 1 =>
      .ok { entries := insertE v.entries k { e with tags := setTag e.tags t (n + 1) },
            clock := v.clock + 1 }

/-- Modelled from the spec (§4.3 latest_version_number / §4.5): the latest
version number of a key; key-existence surfaced as `NotFound`, `none` for
an empty chain. -/
def Vault.getLatestVersionNumber (v : Vault) (k : Str) : Except Err (Option Nat) :=
  match lookupE v.entries k with
  | none => .error .notFound
  | some e =>
    match e.records.length with
    | 0 => .ok none
    | n + 1 => .ok (some (n + 1))

/-- Modelled from the spec (§3 VaultEntry / §4.5 Vault.delete): purge a
key's records and tags; `NotFound` if the key is absent. -/
def Vault.delete (v : Vault) (k : Str) : Except Err Vault :=
  match lookupE v.entries k with
  | none => .error .notFound
  | some _ => .ok { entries := eraseE v.entries k, clock := v.clock + 1 }

/-! ## Association-list lemmas -/

theorem lookupE_insertE_self (l : List (Str × VaultEntry)) (k : Str) (e : VaultEntry) :
    lookupE (insertE l k e) k = some e := by
  simp [insertE, lookupE]

theorem lookupE_eraseE_self (l : List (Str × VaultEntry)) (k : Str) :
    lookupE (eraseE l k) k = none := by
  induction l with
  | nil => simp [eraseE, lookupE]
  | cons p rest ih =>
    obtain ⟨k', e⟩ := p
    by_cases h : k' = k
    · simp [eraseE, h, ih]
    · simp [eraseE, lookupE, h, ih]

theorem lookupE_eraseE_ne (l : List (Str × VaultEntry)) (k k' : Str) (h : k' ≠ k) :
    lookupE (eraseE l k) k' = lookupE l k' := by
  induction l with
  | nil => simp [eraseE]
  | cons p rest ih =>
    obtain ⟨k₀, e⟩ := p
    by_cases h0 : k₀ = k
    · subst h0
      simp [eraseE, lookupE, Ne.symm h, ih]
    · by_cases h1 : k₀ = k'
      · simp [eraseE, lookupE, h0, h1, h]
      · simp [eraseE, lookupE, h0, h1, ih]

theorem lookupE_insertE_ne (l : List (Str × VaultEntry)) (k k' : Str) (e : VaultEntry)
    (h : k' ≠ k) : lookupE (insertE l k e) k' = lookupE l k' := by
  simp only [insertE, lookupE, if_neg (Ne.symm h)]
  exact lookupE_eraseE_ne l k k' h

/-- Indexing in the left part of an append. -/
theorem getE_append_lt {α : Type} (l₁ l₂ : List α) (i : Nat) (h : i < l₁.length) :
    (l₁ ++ l₂)[i]? = l₁[i]? := by
  simp [List.getElem?_append, h]

theorem lookupTag_setTag_self (tags : List (Str × Nat)) (t : Str) (n : Nat) :
    lookupTag (setTag tags t n) t = some n := by
  simp [setTag, lookupTag]

/-! ## Reconstruction lemmas -/

/-- Appending a record does not change the reconstruction of earlier
indices. -/
theorem reconIdx_append (recs : List VersionRecord) (r : VersionRecord) :
    ∀ i, i < recs.length → reconIdx (recs ++ [r]) i = reconIdx recs i := by
  intro i
  induction i with
  | zero =>
    intro h
    simp only [reconIdx]
    rw [getE_append_lt recs [r] 0 h]
  | succ j ih =>
    intro h
    have hj : j < recs.length := Nat.lt_of_succ_lt h
    simp only [reconIdx]
    rw [getE_append_lt recs [r] (j + 1) h, ih hj]

/-- The chain at a key reconstructs exactly the given contents: one record
per content, and reconstructing index `i` yields the `i`-th content. -/
def entryTracks (recs : List VersionRecord) (cs : List Str) : Prop :=
  recs.length = cs.length ∧ ∀ i c, cs[i]? = some c → reconIdx recs i = .ok c

/-- Appending a freshly encoded record extends tracking by one content. -/
theorem entryTracks_append (recs : List VersionRecord) (cs : List Str)
    (r : VersionRecord) (parent c : Str)
    (ht : entryTracks recs cs)
    (hne : cs ≠ [])
    (hpar : reconIdx recs (cs.length - 1) = .ok parent)
    (hpay : r.payload = diffEncode parent c) :
    entryTracks (recs ++ [r]) (cs ++ [c]) := by
  obtain ⟨hlen, htrack⟩ := ht
  constructor
  · simp [hlen]
  · intro i c' hc'
    by_cases hi : i < cs.length
    · have hcs : cs[i]? = some c' := by
        rw [getE_append_lt cs [c] i hi] at hc'
        exact hc'
      rw [reconIdx_append recs r i (by rw [hlen]; exact hi)]
      exact htrack i c' hcs
    · have hi' : i = cs.length := by
        have hlt : i < cs.length + 1 := by
          have := List.getElem?_eq_some.mp hc'
          simpa using this.1
        omega
      subst hi'
      have hcc : c' = c := by
        have hgl : (cs ++ [c])[cs.length]? = some c := by
          simp
        rw [hgl] at hc'
        exact (Option.some.inj hc').symm
      rw [hcc]
      obtain ⟨n, hn⟩ : ∃ n, cs.length = n + 1 := by
        cases hcs : cs with
        | nil => exact absurd hcs hne
        | cons a as => exact ⟨as.length, by simp [hcs]⟩
      rw [hn]
      have hget : (recs ++ [r])[n + 1]? = some r := by
        have : (recs ++ [r])[recs.length]? = some r := by simp
        rw [hlen, hn] at this
        exact this
      have hparent' : reconIdx (recs ++ [r]) n = .ok parent := by
        rw [reconIdx_append recs r n (by omega)]
        have : cs.length - 1 = n := by omega
        rw [this] at hpar
        exact hpar
      have hdec := decodePayload_diffEncode parent c
      rw [← hpay] at hdec
      cases hp : r.payload with
      | snap c₀ =>
        rw [hp] at hdec
        simp [decodePayload] at hdec
        simp [reconIdx, hget, hp, hdec]
      | delta p s mid =>
        rw [hp] at hdec
        simp only [decodePayload] at hdec
        simp [reconIdx, hget, hp, hparent', Except.bind, hdec]

/-! ## Build sequences for the round-trip claim -/

/-- Apply a sequence of `update` calls on one key, stopping at the first
failure. -/
def applyUpdates (v : Vault) (k : Str) : List Str → Except Err Vault
  | [] => .ok v
  | c :: rest => (v.update k c none).bind fun v₁ => applyUpdates v₁ k rest

/-- An `add` followed by one `update` per remaining content — the "nth
add/update call on the key" build sequence of the round-trip property. -/
def addThenUpdates (v : Vault) (k : Str) : List Str → Except Err Vault
  | [] => .ok v
  | c :: rest => (v.add k c).bind fun v₁ => applyUpdates v₁ k rest

/-- A successful `update` extends the tracked contents of the key by the
new content and leaves the tag table alone. -/
theorem update_tracks (v v' : Vault) (k c : Str) (msg : Option Str)
    (e : VaultEntry) (cs : List Str)
    (hl : lookupE v.entries k = some e)
    (ht : entryTracks e.records cs)
    (hne : cs ≠ [])
    (hu : v.update k c msg = .ok v') :
    ∃ e', lookupE v'.entries k = some e' ∧
      entryTracks e'.records (cs ++ [c]) ∧ e'.tags = e.tags := by
  obtain ⟨hlen, htrack⟩ := ht
  obtain ⟨n, hn⟩ : ∃ n, cs.length = n + 1 := by
    cases hcs : cs with
    | nil => exact absurd hcs hne
    | cons a as => exact ⟨as.length, by simp [hcs]⟩
  have hrlen : e.records.length = n + 1 := by rw [hlen, hn]
  obtain ⟨parent, hparc⟩ : ∃ parent, cs[n]? = some parent := by
    have : n < cs.length := by omega
    exact ⟨cs.get ⟨n, this⟩, List.getElem?_eq_getElem this⟩
  have hpar : reconIdx e.records n = .ok parent := htrack n parent hparc
  simp only [Vault.update, hl, hrlen, hpar, Except.bind] at hu
  have hv := Except.ok.inj hu
  subst hv
  refine ⟨_, lookupE_insertE_self _ _ _, ?_, rfl⟩
  exact entryTracks_append e.records cs _ parent c ⟨hlen, htrack⟩ hne
    (by rw [hn]; simpa using hpar) rfl

/-- A successful chain of `update`s extends the tracked contents by all the
new contents in order. -/
theorem applyUpdates_tracks (k : Str) (rest : List Str) :
    ∀ (v v' : Vault) (e : VaultEntry) (cs : List Str),
      lookupE v.entries k = some e →
      entryTracks e.records cs →
      cs ≠ [] →
      applyUpdates v k rest = .ok v' →
      ∃ e', lookupE v'.entries k = some e' ∧ entryTracks e'.records (cs ++ rest) := by
  induction rest with
  | nil =>
    intro v v' e cs hl ht _ hap
    simp only [applyUpdates] at hap
    have : v = v' := Except.ok.inj hap
    subst this
    exact ⟨e, hl, by simpa using ht⟩
  | cons c rest ih =>
    intro v v' e cs hl ht hne hap
    simp only [applyUpdates] at hap
    cases hu : v.update k c none with
    | error err => rw [hu] at hap; simp [Except.bind] at hap
    | ok v₁ =>
      rw [hu] at hap
      simp only [Except.bind] at hap
      obtain ⟨e₁, hl₁, ht₁, _⟩ := update_tracks v v₁ k c none e cs hl ht hne hu
      have := ih v₁ v' e₁ (cs ++ [c]) hl₁ ht₁ (by simp) hap
      simpa using this

/-- A successful `add` on an absent key creates a fresh single-snapshot
chain tracking exactly the added content. -/
theorem add_tracks (v : Vault) (k c : Str) (habs : lookupE v.entries k = none) :
    ∃ v₁, v.add k c = .ok v₁ ∧
      ∃ e, lookupE v₁.entries k = some e ∧ entryTracks e.records [c] ∧ e.tags = [] := by
  refine ⟨_, by rw [Vault.add, habs], _, lookupE_insertE_self _ _ _, ?_, rfl⟩
  constructor
  · simp
  · intro i c' hc'
    cases i with
    | zero =>
      simp at hc'
      subst hc'
      simp [reconIdx]
    | succ j => simp at hc'

/-- C1: for every key and every `n` from 1 to the number of add/update
calls made on that key, `get(key, n)` returns exactly the content string
passed to the nth add/update call on that key, regardless of whether that
version was stored as a snapshot or as a delta.  The build sequence is an
`add` followed by `update`s on a key absent from an arbitrary starting
vault; the encode policy freely mixes snapshots and deltas. -/
theorem claim_C1_roundtrip (v v' : Vault) (k : Str) (cs : List Str)
    (habs : lookupE v.entries k = none)
    (hb : addThenUpdates v k cs = .ok v')
    (n : Nat) (c : Str) (h1 : 1 ≤ n) (hc : cs[n - 1]? = some c) :
    v'.get k (.version n) = .ok c := by
  cases cs with
  | nil =>
    have : n - 1 < ([] : List Str).length := (List.getElem?_eq_some.mp hc).1
    simp at this
  | cons c₀ rest =>
    simp only [addThenUpdates] at hb
    obtain ⟨v₁, hadd, e, hl, ht, _⟩ := add_tracks v k c₀ habs
    rw [hadd] at hb
    simp only [Except.bind] at hb
    obtain ⟨e', hl', ht'⟩ := applyUpdates_tracks k rest v₁ v' e [c₀] hl ht (by simp) hb
    obtain ⟨hlen, htrack⟩ := ht'
    have hcn : ([c₀] ++ rest)[n - 1]? = some c := hc
    have hbound : n - 1 < ([c₀] ++ rest).length := (List.getElem?_eq_some.mp hcn).1
    simp only [Vault.get, hl']
    have hcond : 1 ≤ n ∧ n ≤ e'.records.length := by
      refine ⟨h1, ?_⟩
      rw [hlen]
      simp only [List.length_append, List.length_cons, List.length_nil] at hbound ⊢
      omega
    rw [if_pos hcond]
    exact htrack (n - 1) c hcn

/-- Witness for C1 at a concrete build: contents "Hi", "How", "Zebra" give
a snapshot, a delta and a (policy-forced) snapshot; version 2 — the delta —
reconstructs exactly the second content. -/
theorem claim_C1_roundtrip_witness :
    (addThenUpdates emptyVault ['g'] [['H','i'], ['H','o','w'], ['Z','e','b','r','a']]).map
      (fun v' => v'.get ['g'] (.version 2)) = .ok (.ok ['H','o','w']) := by
  cases hb : addThenUpdates emptyVault ['g'] [['H','i'], ['H','o','w'], ['Z','e','b','r','a']] with
  | error e =>
    have hok : (addThenUpdates emptyVault ['g']
        [['H','i'], ['H','o','w'], ['Z','e','b','r','a']]).isOk = true := by decide
    rw [hb] at hok
    simp [Except.isOk, Except.toBool] at hok
  | ok v' =>
    have h := claim_C1_roundtrip emptyVault v' ['g']
      [['H','i'], ['H','o','w'], ['Z','e','b','r','a']] rfl hb 2 ['H','o','w']
      (by decide) (by decide)
    simp [Except.map, h]

/-! ## The linear-history invariant (spec §3) and its preservation -/

/-- The spec's Version Chain invariant for one key: the chain is nonempty,
the record at index `i` carries version `i + 1`, parent `version - 1`
(absent for version 1) and the owning key, and every index reconstructs
successfully. -/
def chainWF (k : Str) (recs : List VersionRecord) : Prop :=
  recs ≠ [] ∧
  (∀ i r, recs[i]? = some r →
    r.version = i + 1 ∧ r.parent = (if i = 0 then none else some i) ∧ r.key = k) ∧
  (∀ i, i < recs.length → ∃ c, reconIdx recs i = .ok c)

/-- The vault invariant: every entry's chain is well-formed. -/
def VaultWF (v : Vault) : Prop :=
  ∀ k e, lookupE v.entries k = some e → chainWF k e.records

theorem vaultWF_empty : VaultWF emptyVault := by
  intro k e hl
  simp [emptyVault, lookupE] at hl

/-- Appending a record freshly encoded against the reconstruction of the
last index reconstructs to the new content at the new index. -/
theorem reconIdx_append_encode (recs : List VersionRecord) (r : VersionRecord)
    (parent c : Str) (n : Nat)
    (hlen : recs.length = n + 1)
    (hpar : reconIdx recs n = .ok parent)
    (hpay : r.payload = diffEncode parent c) :
    reconIdx (recs ++ [r]) (n + 1) = .ok c := by
  have hget : (recs ++ [r])[n + 1]? = some r := by
    have hgl : (recs ++ [r])[recs.length]? = some r := by simp
    rw [hlen] at hgl
    exact hgl
  have hparent' : reconIdx (recs ++ [r]) n = .ok parent := by
    rw [reconIdx_append recs r n (by omega)]
    exact hpar
  have hdec := decodePayload_diffEncode parent c
  rw [← hpay] at hdec
  cases hp : r.payload with
  | snap c₀ =>
    rw [hp] at hdec
    simp [decodePayload] at hdec
    simp [reconIdx, hget, hp, hdec]
  | delta p s mid =>
    rw [hp] at hdec
    simp only [decodePayload] at hdec
    simp [reconIdx, hget, hp, hparent', Except.bind, hdec]

/-- A fresh single-snapshot chain is well-formed. -/
theorem chainWF_single (k c : Str) (ts : Nat) :
    chainWF k [{ key := k, version := 1, timestamp := ts, parent := none,
                 message := none, object_hash := contentHash c, payload := .snap c }] := by
  refine ⟨by simp, ?_, ?_⟩
  · intro i r hr
    cases i with
    | zero =>
      simp at hr
      subst hr
      simp
    | succ j => simp at hr
  · intro i hi
    simp at hi
    subst hi
    exact ⟨c, by simp [reconIdx]⟩

/-- Operation `add` preserves the vault invariant. -/
theorem vaultWF_add (v v' : Vault) (k c : Str) (hwf : VaultWF v)
    (hu : v.add k c = .ok v') : VaultWF v' := by
  cases hl : lookupE v.entries k with
  | some e => simp [Vault.add, hl] at hu
  | none =>
    simp only [Vault.add, hl] at hu
    have hv := Except.ok.inj hu
    have hent : v'.entries = insertE v.entries k
        ⟨[{ key := k, version := 1, timestamp := v.clock, parent := none,
              message := none, object_hash := contentHash c, payload := .snap c }], []⟩ :=
      (congrArg Vault.entries hv).symm
    intro k' e' hl'
    rw [hent] at hl'
    by_cases hk : k' = k
    · subst hk
      rw [lookupE_insertE_self] at hl'
      have he := Option.some.inj hl'
      rw [← he]
      exact chainWF_single k' c v.clock
    · rw [lookupE_insertE_ne _ _ _ _ hk] at hl'
      exact hwf k' e' hl'

/-- Appending a record with the next version number, a parent pointer to
the previous version and a decodable payload preserves chain
well-formedness. -/
theorem chainWF_append (k : Str) (recs : List VersionRecord) (r : VersionRecord)
    (hwf : chainWF k recs)
    (hver : r.version = recs.length + 1)
    (hparr : r.parent = some recs.length)
    (hkey : r.key = k)
    (hrc : ∃ c, reconIdx (recs ++ [r]) recs.length = .ok c) :
    chainWF k (recs ++ [r]) := by
  obtain ⟨hne, hidx, hrec⟩ := hwf
  refine ⟨by simp, ?_, ?_⟩
  · intro i r₀ hr₀
    by_cases hi : i < recs.length
    · rw [getE_append_lt _ _ _ hi] at hr₀
      exact hidx i r₀ hr₀
    · have hi' : i = recs.length := by
        have := (List.getElem?_eq_some.mp hr₀).1
        simp at this
        omega
      subst hi'
      have hgl : (recs ++ [r])[recs.length]? = some r := by simp
      rw [hgl] at hr₀
      have hrr := Option.some.inj hr₀
      rw [← hrr]
      have hlpos : recs.length ≠ 0 := by
        intro h0
        exact hne (List.eq_nil_of_length_eq_zero h0)
      refine ⟨hver, ?_, hkey⟩
      rw [if_neg hlpos]
      exact hparr
  · intro i hi
    simp only [List.length_append, List.length_cons, List.length_nil] at hi
    by_cases hlt : i < recs.length
    · obtain ⟨c₀, hc₀⟩ := hrec i hlt
      exact ⟨c₀, by rw [reconIdx_append _ _ _ hlt]; exact hc₀⟩
    · have hi' : i = recs.length := by omega
      subst hi'
      exact hrc

/-- Operation `update` preserves the vault invariant. -/
theorem vaultWF_update (v v' : Vault) (k c : Str) (msg : Option Str) (hwf : VaultWF v)
    (hu : v.update k c msg = .ok v') : VaultWF v' := by
  cases hl : lookupE v.entries k with
  | none => simp [Vault.update, hl] at hu
  | some e =>
    cases hn : e.records.length with
    | zero => simp [Vault.update, hl, hn] at hu
    | succ n =>
      cases hp : reconIdx e.records n with
      | error err => simp [Vault.update, hl, hn, hp, Except.bind] at hu
      | ok parent =>
        simp only [Vault.update, hl, hn, hp, Except.bind] at hu
        have hv := Except.ok.inj hu
        have hent : v'.entries = insertE v.entries k
            { e with records := e.records ++
                [{ key := k, version := n + 2, timestamp := v.clock,
                   parent := some (n + 1), message := msg,
                   object_hash := contentHash c, payload := diffEncode parent c }] } :=
          (congrArg Vault.entries hv).symm
        intro k' e' hl'
        rw [hent] at hl'
        by_cases hk : k' = k
        · subst hk
          rw [lookupE_insertE_self] at hl'
          have he := Option.some.inj hl'
          rw [← he]
          refine chainWF_append k' e.records _ (hwf k' e hl) ?_ ?_ rfl ?_
          · rw [hn]
          · rw [hn]
          · rw [hn]
            exact ⟨c, reconIdx_append_encode e.records _ parent c n hn hp rfl⟩
        · rw [lookupE_insertE_ne _ _ _ _ hk] at hl'
          exact hwf k' e' hl'

/-- Operation `tag` preserves the vault invariant (records unchanged). -/
theorem vaultWF_tag (v v' : Vault) (k t : Str) (n : Nat) (hwf : VaultWF v)
    (hu : v.tag k t n = .ok v') : VaultWF v' := by
  cases hl : lookupE v.entries k with
  | none => simp [Vault.tag, hl] at hu
  | some e =>
    by_cases hr : 1 ≤ n ∧ n ≤ e.records.length
    · simp only [Vault.tag, hl, if_pos hr] at hu
      have hv := Except.ok.inj hu
      have hent : v'.entries = insertE v.entries k { e with tags := setTag e.tags t n } :=
        (congrArg Vault.entries hv).symm
      intro k' e' hl'
      rw [hent] at hl'
      by_cases hk : k' = k
      · subst hk
        rw [lookupE_insertE_self] at hl'
        have he := Option.some.inj hl'
        rw [← he]
        exact hwf k' e hl
      · rw [lookupE_insertE_ne _ _ _ _ hk] at hl'
        exact hwf k' e' hl'
    · simp [Vault.tag, hl, if_neg hr] at hu

/-- Operation `promote` preserves the vault invariant (records unchanged). -/
theorem vaultWF_promote (v v' : Vault) (k t : Str) (hwf : VaultWF v)
    (hu : v.promote k t = .ok v') : VaultWF v' := by
  cases hl : lookupE v.entries k with
  | none => simp [Vault.promote, hl] at hu
  | some e =>
    cases hn : e.records.length with
    | zero => simp [Vault.promote, hl, hn] at hu
    | succ n =>
      simp only [Vault.promote, hl, hn] at hu
      have hv := Except.ok.inj hu
      have hent : v'.entries = insertE v.entries k
          { e with tags := setTag e.tags t (n + 1) } :=
        (congrArg Vault.entries hv).symm
      intro k' e' hl'
      rw [hent] at hl'
      by_cases hk : k' = k
      · subst hk
        rw [lookupE_insertE_self] at hl'
        have he := Option.some.inj hl'
        rw [← he]
        exact hwf k' e hl
      · rw [lookupE_insertE_ne _ _ _ _ hk] at hl'
        exact hwf k' e' hl'

/-- Operation `delete` preserves the vault invariant. -/
theorem vaultWF_delete (v v' : Vault) (k : Str) (hwf : VaultWF v)
    (hu : v.delete k = .ok v') : VaultWF v' := by
  cases hl : lookupE v.entries k with
  | none => simp [Vault.delete, hl] at hu
  | some e =>
    simp only [Vault.delete, hl] at hu
    have hv := Except.ok.inj hu
    have hent : v'.entries = eraseE v.entries k :=
      (congrArg Vault.entries hv).symm
    intro k' e' hl'
    rw [hent] at hl'
    by_cases hk : k' = k
    · subst hk
      rw [lookupE_eraseE_self] at hl'
      exact absurd hl' (by simp)
    · rw [lookupE_eraseE_ne _ _ _ hk] at hl'
      exact hwf k' e' hl'

/-! ## Reachable vault states -/

/-- One public mutating operation of the vault surface.  Failed operations
leave the vault unchanged (the caller gets the error). -/
inductive Op where
  | addOp (k c : Str)
  | updateOp (k c : Str) (m : Option Str)
  | tagOp (k t : Str) (n : Nat)
  | promoteOp (k t : Str)
  | deleteOp (k : Str)
deriving DecidableEq, Repr

/-- Keep the new vault of a successful operation, the old one otherwise. -/
def orSame (v : Vault) : Except Err Vault → Vault
  | .ok v' => v'
  | .error _ => v

/-- Apply one operation, keeping the old state on failure. -/
def applyOp (v : Vault) : Op → Vault
  | .addOp k c => orSame v (v.add k c)
  | .updateOp k c m => orSame v (v.update k c m)
  | .tagOp k t n => orSame v (v.tag k t n)
  | .promoteOp k t => orSame v (v.promote k t)
  | .deleteOp k => orSame v (v.delete k)

/-- The vault reached by a sequence of operations from the empty vault. -/
def applyOps (ops : List Op) : Vault :=
  ops.foldl applyOp emptyVault

theorem vaultWF_applyOp (v : Vault) (op : Op) (hwf : VaultWF v) :
    VaultWF (applyOp v op) := by
  cases op with
  | addOp k c =>
    cases hu : v.add k c with
    | ok v' => rw [applyOp, hu]; exact vaultWF_add v v' k c hwf hu
    | error e => rw [applyOp, hu]; exact hwf
  | updateOp k c m =>
    cases hu : v.update k c m with
    | ok v' => rw [applyOp, hu]; exact vaultWF_update v v' k c m hwf hu
    | error e => rw [applyOp, hu]; exact hwf
  | tagOp k t n =>
    cases hu : v.tag k t n with
    | ok v' => rw [applyOp, hu]; exact vaultWF_tag v v' k t n hwf hu
    | error e => rw [applyOp, hu]; exact hwf
  | promoteOp k t =>
    cases hu : v.promote k t with
    | ok v' => rw [applyOp, hu]; exact vaultWF_promote v v' k t hwf hu
    | error e => rw [applyOp, hu]; exact hwf
  | deleteOp k =>
    cases hu : v.delete k with
    | ok v' => rw [applyOp, hu]; exact vaultWF_delete v v' k hwf hu
    | error e => rw [applyOp, hu]; exact hwf

theorem vaultWF_foldl (ops : List Op) :
    ∀ v, VaultWF v → VaultWF (ops.foldl applyOp v) := by
  induction ops with
  | nil => intro v hwf; exact hwf
  | cons op rest ih =>
    intro v hwf
    exact ih (applyOp v op) (vaultWF_applyOp v op hwf)

/-- Every vault reachable from the empty vault by public operations is
well-formed. -/
theorem vaultWF_applyOps (ops : List Op) : VaultWF (applyOps ops) :=
  vaultWF_foldl ops emptyVault vaultWF_empty

/-- C2: for every key with at least one version, `history(key)` returns
records whose version numbers form the contiguous sequence `1..N` with no
gaps, ordered oldest first (the record at index `i` carries version
`i + 1`), and every record's parent equals `version - 1` except version 1,
which has no parent.  The vault is any state reachable from the empty
vault by public operations. -/
theorem claim_C2_history_invariant (ops : List Op) (k : Str) (l : List VersionMeta)
    (h : (applyOps ops).history k = .ok l) :
    l ≠ [] ∧ ∀ i m, l[i]? = some m →
      m.version = i + 1 ∧ m.parent = (if i = 0 then none else some i) := by
  have hwf := vaultWF_applyOps ops
  cases hl : lookupE (applyOps ops).entries k with
  | none => simp [Vault.history, hl] at h
  | some e =>
    simp only [Vault.history, hl] at h
    have hml := Except.ok.inj h
    obtain ⟨hne, hidx, _⟩ := hwf k e hl
    constructor
    · rw [← hml]
      simpa using hne
    · intro i m hm
      rw [← hml] at hm
      rw [List.getElem?_map] at hm
      cases hr : e.records[i]? with
      | none => rw [hr] at hm; simp at hm
      | some r =>
        rw [hr] at hm
        simp only [Option.map_some'] at hm
        obtain ⟨hver, hparr, _⟩ := hidx i r hr
        have hmr := Option.some.inj hm
        rw [← hmr]
        exact ⟨by simp [metaOf, hver], by simp [metaOf, hparr]⟩

/-- Witness for C2: a concrete two-version history (snapshot then delta)
has versions 1, 2 with parents none, some 1. -/
theorem claim_C2_witness :
    (applyOps [Op.addOp ['g'] ['H','i'], Op.updateOp ['g'] ['H','o'] none]).history ['g'] =
      .ok [{ key := ['g'], version := 1, timestamp := 0, parent := none, message := none,
             object_hash := contentHash ['H','i'], snapshot := true, tags := [] },
           { key := ['g'], version := 2, timestamp := 1, parent := some 1, message := none,
             object_hash := contentHash ['H','o'], snapshot := false, tags := [] }] ∧
    ([{ key := ['g'], version := 1, timestamp := 0, parent := none, message := none,
        object_hash := contentHash ['H','i'], snapshot := true, tags := [] },
      { key := ['g'], version := 2, timestamp := 1, parent := some 1, message := none,
        object_hash := contentHash ['H','o'], snapshot := false, tags := [] }]
        : List VersionMeta) ≠ [] ∧
    ∀ i m, ([{ key := ['g'], version := 1, timestamp := 0, parent := none, message := none,
               object_hash := contentHash ['H','i'], snapshot := true, tags := [] },
             { key := ['g'], version := 2, timestamp := 1, parent := some 1, message := none,
               object_hash := contentHash ['H','o'], snapshot := false, tags := [] }]
               : List VersionMeta)[i]? = some m →
      m.version = i + 1 ∧ m.parent = (if i = 0 then none else some i) :=
  ⟨by rfl,
   claim_C2_history_invariant [Op.addOp ['g'] ['H','i'], Op.updateOp ['g'] ['H','o'] none]
     ['g'] _ (by rfl)⟩

/-! ## The per-key state machine (spec §4.5) -/

/-- A key is Active when it has at least one version (spec §4.5: the
per-key state machine `Absent → Active → Deleted`; Deleted purges the
entry, so Absent and Deleted states both have no entry). -/
def Vault.active (v : Vault) (k : Str) : Prop :=
  ∃ e, lookupE v.entries k = some e ∧ e.records ≠ []

/-- In a well-formed vault, a key is Active exactly when it has an entry. -/
theorem active_iff_lookup (v : Vault) (k : Str) (hwf : VaultWF v) :
    v.active k ↔ ∃ e, lookupE v.entries k = some e := by
  constructor
  · rintro ⟨e, hl, _⟩
    exact ⟨e, hl⟩
  · rintro ⟨e, hl⟩
    exact ⟨e, hl, (hwf k e hl).1⟩

/-- On a well-formed entry, `update` always succeeds. -/
theorem update_ok_of_chainWF (v : Vault) (k c : Str) (msg : Option Str) (e : VaultEntry)
    (hl : lookupE v.entries k = some e) (hcw : chainWF k e.records) :
    ∃ v', v.update k c msg = .ok v' := by
  obtain ⟨hne, _, hrec⟩ := hcw
  obtain ⟨n, hn⟩ : ∃ n, e.records.length = n + 1 := by
    cases hr : e.records with
    | nil => exact absurd hr hne
    | cons a as => exact ⟨as.length, by simp [hr]⟩
  obtain ⟨parent, hp⟩ := hrec n (by omega)
  cases hu : v.update k c msg with
  | ok v' => exact ⟨v', rfl⟩
  | error err => simp [Vault.update, hl, hn, hp, Except.bind] at hu

/-- Inversion of a successful `add`. -/
theorem add_ok_inv (v v' : Vault) (k c : Str) (hu : v.add k c = .ok v') :
    lookupE v.entries k = none ∧
    v' = { entries := insertE v.entries k
             ⟨[{ key := k, version := 1, timestamp := v.clock, parent := none,
                   message := none, object_hash := contentHash c, payload := .snap c }], []⟩,
           clock := v.clock + 1 } := by
  cases hl : lookupE v.entries k with
  | some e => simp [Vault.add, hl] at hu
  | none =>
    simp only [Vault.add, hl] at hu
    exact ⟨rfl, (Except.ok.inj hu).symm⟩

/-- Inversion of a successful `delete`. -/
theorem delete_ok_inv (v v₂ : Vault) (k : Str) (hu : v.delete k = .ok v₂) :
    (∃ e, lookupE v.entries k = some e) ∧
    v₂ = { entries := eraseE v.entries k, clock := v.clock + 1 } := by
  cases hl : lookupE v.entries k with
  | none => simp [Vault.delete, hl] at hu
  | some e =>
    simp only [Vault.delete, hl] at hu
    exact ⟨⟨e, rfl⟩, (Except.ok.inj hu).symm⟩

/-- C5: the per-key state machine on any reachable vault: `add` fails with
`AlreadyExists` iff the key is Active (and succeeds otherwise); `update`
fails with `NotFound` iff the key is Absent/Deleted (and succeeds
otherwise); after a successful `delete`, `get(key, "latest")` fails with
`NotFound`; and re-adding a deleted key starts a fresh chain at version 1
with no memory of prior history (a single parentless untagged snapshot
record whose content is the newly added one). -/
theorem claim_C5_state_machine (ops : List Op) (k c c₂ : Str) (msg : Option Str) :
    ((applyOps ops).add k c = .error .alreadyExists ↔ (applyOps ops).active k) ∧
    (¬ (applyOps ops).active k → ∃ v', (applyOps ops).add k c = .ok v') ∧
    ((applyOps ops).update k c msg = .error .notFound ↔ ¬ (applyOps ops).active k) ∧
    ((applyOps ops).active k → ∃ v', (applyOps ops).update k c msg = .ok v') ∧
    (∀ v₂, (applyOps ops).delete k = .ok v₂ → v₂.get k .latest = .error .notFound) ∧
    (∀ v₂ v₃, (applyOps ops).delete k = .ok v₂ → v₂.add k c₂ = .ok v₃ →
      v₃.history k =
        .ok [{ key := k, version := 1, timestamp := v₂.clock, parent := none,
               message := none, object_hash := contentHash c₂, snapshot := true,
               tags := [] }] ∧
      v₃.get k .latest = .ok c₂) := by
  have hwf := vaultWF_applyOps ops
  refine ⟨?_, ?_, ?_, ?_, ?_, ?_⟩
  · constructor
    · intro hu
      cases hl : lookupE (applyOps ops).entries k with
      | none => simp [Vault.add, hl] at hu
      | some e => exact ⟨e, hl, (hwf k e hl).1⟩
    · rintro ⟨e, hl, _⟩
      simp [Vault.add, hl]
  · intro hna
    cases hl : lookupE (applyOps ops).entries k with
    | none =>
      cases hu : (applyOps ops).add k c with
      | ok v' => exact ⟨v', rfl⟩
      | error err => simp [Vault.add, hl] at hu
    | some e => exact absurd ⟨e, hl, (hwf k e hl).1⟩ hna
  · constructor
    · intro hu
      cases hl : lookupE (applyOps ops).entries k with
      | none =>
        rintro ⟨e, hl', _⟩
        rw [hl] at hl'
        exact absurd hl' (by simp)
      | some e =>
        obtain ⟨v', hv'⟩ := update_ok_of_chainWF _ k c msg e hl (hwf k e hl)
        rw [hv'] at hu
        exact absurd hu (by simp)
    · intro hna
      cases hl : lookupE (applyOps ops).entries k with
      | none => simp [Vault.update, hl]
      | some e => exact absurd ⟨e, hl, (hwf k e hl).1⟩ hna
  · rintro ⟨e, hl, _⟩
    exact update_ok_of_chainWF _ k c msg e hl (hwf k e hl)
  · intro v₂ hd
    obtain ⟨_, hv₂⟩ := delete_ok_inv _ v₂ k hd
    have hent : v₂.entries = eraseE (applyOps ops).entries k :=
      congrArg Vault.entries hv₂
    have : lookupE v₂.entries k = none := by
      rw [hent]
      exact lookupE_eraseE_self _ _
    simp [Vault.get, this]
  · intro v₂ v₃ hd ha
    obtain ⟨hnone, hv₃⟩ := add_ok_inv v₂ v₃ k c₂ ha
    have hent : v₃.entries = insertE v₂.entries k
        ⟨[{ key := k, version := 1, timestamp := v₂.clock, parent := none,
              message := none, object_hash := contentHash c₂, payload := .snap c₂ }], []⟩ :=
      congrArg Vault.entries hv₃
    have hl₃ : lookupE v₃.entries k = some
        ⟨[{ key := k, version := 1, timestamp := v₂.clock, parent := none,
              message := none, object_hash := contentHash c₂, payload := .snap c₂ }], []⟩ := by
      rw [hent]
      exact lookupE_insertE_self _ _ _
    constructor
    · simp [Vault.history, hl₃, metaOf, tagsFor, DiffPayload.isSnap]
    · simp [Vault.get, hl₃, reconIdx]

/-- Witness for C5 at a concrete vault with one key: `add` on the Active
key fails with `AlreadyExists`, and after `delete` the key's latest
content is `NotFound`. -/
theorem claim_C5_witness :
    (applyOps [Op.addOp ['g'] ['H','i']]).add ['g'] ['X'] = .error .alreadyExists ∧
    ((applyOps [Op.addOp ['g'] ['H','i']]).delete ['g']).map
      (fun v₂ => v₂.get ['g'] .latest) = .ok (.error .notFound) := by
  constructor
  · exact (claim_C5_state_machine [Op.addOp ['g'] ['H','i']] ['g'] ['X'] ['Y'] none).1.mpr
      ⟨_, rfl, by decide⟩
  · cases hd : (applyOps [Op.addOp ['g'] ['H','i']]).delete ['g'] with
    | error e =>
      have hok : ((applyOps [Op.addOp ['g'] ['H','i']]).delete ['g']).isOk = true := by decide
      rw [hd] at hok
      simp [Except.isOk, Except.toBool] at hok
    | ok v₂ =>
      have h := (claim_C5_state_machine [Op.addOp ['g'] ['H','i']] ['g'] ['X'] ['Y']
        none).2.2.2.2.1 v₂ hd
      simp [Except.map, h]

/-- C6: immediately after a successful `tag(k, t, v)`, `get(k, t)` equals
`get(k, v)`; and immediately after a successful `promote(k, t)`,
`get(k, t)` equals `get(k, "latest")`. -/
theorem claim_C6_tag_resolution (v v₂ v₃ : Vault) (k t : Str) (n : Nat) :
    (v.tag k t n = .ok v₂ → v₂.get k (.tagName t) = v₂.get k (.version n)) ∧
    (v.promote k t = .ok v₃ → v₃.get k (.tagName t) = v₃.get k .latest) := by
  constructor
  · intro hu
    cases hl : lookupE v.entries k with
    | none => simp [Vault.tag, hl] at hu
    | some e =>
      by_cases hr : 1 ≤ n ∧ n ≤ e.records.length
      · simp only [Vault.tag, hl, if_pos hr] at hu
        have hv₂ := (Except.ok.inj hu).symm
        have hent : v₂.entries = insertE v.entries k { e with tags := setTag e.tags t n } :=
          congrArg Vault.entries hv₂
        have hl₂ : lookupE v₂.entries k = some { e with tags := setTag e.tags t n } := by
          rw [hent]
          exact lookupE_insertE_self _ _ _
        simp [Vault.get, hl₂, lookupTag_setTag_self]
      · simp [Vault.tag, hl, if_neg hr] at hu
  · intro hu
    cases hl : lookupE v.entries k with
    | none => simp [Vault.promote, hl] at hu
    | some e =>
      cases hn : e.records.length with
      | zero => simp [Vault.promote, hl, hn] at hu
      | succ n₀ =>
        simp only [Vault.promote, hl, hn] at hu
        have hv₃ := (Except.ok.inj hu).symm
        have hent : v₃.entries = insertE v.entries k
            { e with tags := setTag e.tags t (n₀ + 1) } :=
          congrArg Vault.entries hv₃
        have hl₃ : lookupE v₃.entries k = some { e with tags := setTag e.tags t (n₀ + 1) } := by
          rw [hent]
          exact lookupE_insertE_self _ _ _
        have hcond : 1 ≤ n₀ + 1 ∧ n₀ + 1 ≤ e.records.length := ⟨by omega, by rw [hn]⟩
        simp [Vault.get, hl₃, lookupTag_setTag_self, hcond, hn]

/-- Witness for C6 at a concrete vault: tagging version 1 makes the tag
resolve to version 1's content, and promoting makes it resolve to the
latest. -/
theorem claim_C6_witness :
    ((applyOps [Op.addOp ['g'] ['H','i'], Op.updateOp ['g'] ['H','o'] none]).tag
        ['g'] ['s'] 1).map (fun v₂ => v₂.get ['g'] (.tagName ['s'])) =
      ((applyOps [Op.addOp ['g'] ['H','i'], Op.updateOp ['g'] ['H','o'] none]).tag
        ['g'] ['s'] 1).map (fun v₂ => v₂.get ['g'] (.version 1)) ∧
    ((applyOps [Op.addOp ['g'] ['H','i'], Op.updateOp ['g'] ['H','o'] none]).promote
        ['g'] ['s']).map (fun v₃ => v₃.get ['g'] (.tagName ['s'])) =
      ((applyOps [Op.addOp ['g'] ['H','i'], Op.updateOp ['g'] ['H','o'] none]).promote
        ['g'] ['s']).map (fun v₃ => v₃.get ['g'] .latest) := by
  constructor
  · cases ht : (applyOps [Op.addOp ['g'] ['H','i'], Op.updateOp ['g'] ['H','o'] none]).tag
        ['g'] ['s'] 1 with
    | error e => rfl
    | ok v₂ =>
      have h := (claim_C6_tag_resolution _ v₂ v₂ ['g'] ['s'] 1).1 ht
      simp [Except.map, h]
  · cases hp : (applyOps [Op.addOp ['g'] ['H','i'], Op.updateOp ['g'] ['H','o'] none]).promote
        ['g'] ['s'] with
    | error e => rfl
    | ok v₃ =>
      have h := (claim_C6_tag_resolution _ v₃ v₃ ['g'] ['s'] 1).2 hp
      simp [Except.map, h]

/-! ## Persistence codec (spec §4.6, §6)

Modelled from the spec: the Rust persistence codec is absent from `src/`.
The persisted file is a number sequence: a self-describing envelope (magic
marker, format version, optional encryption header) followed by the
serialized vault payload (per-key version sequences with payload data and
flags, and tag mappings).  Since a functional model cannot express
confidentiality, password-based authenticated encryption is modelled by its
observable contract (§4.6): the envelope records which password the blob
was sealed with, and decryption succeeds exactly when the supplied password
matches, failing with `AuthenticationFailed` otherwise. -/

/-- Serialize a string: length then character codes. -/
def serStr (s : Str) : List Nat :=
  s.length :: s.map Char.toNat

/-- Parse one number. -/
def pNat : List Nat → Option (Nat × List Nat)
  | [] => none
  | n :: r => some (n, r)

/-- Parse a counted run of characters. -/
def pChars : Nat → List Nat → Option (Str × List Nat)
  | 0, l => some ([], l)
  | _ + 1, [] => none
  | j + 1, n :: r =>
    match pChars j r with
    | none => none
    | some (cs, rest) => some (Char.ofNat n :: cs, rest)

/-- Parse a length-prefixed string. -/
def pStr (l : List Nat) : Option (Str × List Nat) := do
  let (n, l) ← pNat l
  pChars n l

/-- Serialize an optional number: tag then payload. -/
def serOptNat : Option Nat → List Nat
  | none => [0]
  | some n => [1, n]

/-- Parse an optional number. -/
def pOptNat : List Nat → Option (Option Nat × List Nat)
  | 0 :: r => some (none, r)
  | 1 :: n :: r => some (some n, r)
  | _ => none

/-- Serialize an optional string. -/
def serOptStr : Option Str → List Nat
  | none => [0]
  | some s => 1 :: serStr s

/-- Parse an optional string. -/
def pOptStr : List Nat → Option (Option Str × List Nat)
  | 0 :: r => some (none, r)
  | 1 :: r =>
    match pStr r with
    | none => none
    | some (s, rest) => some (some s, rest)
  | _ => none

/-- Serialize a stored payload with its snapshot/delta flag. -/
def serPayload : DiffPayload → List Nat
  | .snap c => 0 :: serStr c
  | .delta p s m => 1 :: p :: s :: serStr m

/-- Parse a stored payload. -/
def pPayload : List Nat → Option (DiffPayload × List Nat)
  | 0 :: r =>
    match pStr r with
    | none => none
    | some (c, rest) => some (.snap c, rest)
  | 1 :: p :: s :: r =>
    match pStr r with
    | none => none
    | some (m, rest) => some (.delta p s m, rest)
  | _ => none

/-- Serialize one version record (all §6-exposed fields plus the stored
payload; the snapshot flag is the payload's constructor tag). -/
def serRecord (rec : VersionRecord) : List Nat :=
  serStr rec.key ++ rec.version :: rec.timestamp :: (serOptNat rec.parent ++
    (serOptStr rec.message ++ rec.object_hash :: serPayload rec.payload))

/-- Parse one version record. -/
def pRecord (l : List Nat) : Option (VersionRecord × List Nat) := do
  let (key, l) ← pStr l
  let (ver, l) ← pNat l
  let (ts, l) ← pNat l
  let (par, l) ← pOptNat l
  let (msg, l) ← pOptStr l
  let (oh, l) ← pNat l
  let (pay, l) ← pPayload l
  return ({ key := key, version := ver, timestamp := ts, parent := par,
            message := msg, object_hash := oh, payload := pay }, l)

/-- Serialize a counted list. -/
def serList {α : Type} (f : α → List Nat) (l : List α) : List Nat :=
  l.length :: (l.map f).flatten

/-- Parse a run of `count` items. -/
def pListAux {α : Type} (f : List Nat → Option (α × List Nat)) :
    Nat → List Nat → Option (List α × List Nat)
  | 0, l => some ([], l)
  | j + 1, l => do
    let (a, l) ← f l
    let (as, l) ← pListAux f j l
    return (a :: as, l)

/-- Parse a counted list. -/
def pList {α : Type} (f : List Nat → Option (α × List Nat)) (l : List Nat) :
    Option (List α × List Nat) := do
  let (n, l) ← pNat l
  pListAux f n l

/-- Serialize one tag-table binding. -/
def serTagEntry (p : Str × Nat) : List Nat :=
  serStr p.1 ++ [p.2]

/-- Parse one tag-table binding. -/
def pTagEntry (l : List Nat) : Option ((Str × Nat) × List Nat) := do
  let (t, l) ← pStr l
  let (n, l) ← pNat l
  return ((t, n), l)

/-- Serialize one vault entry: its records then its tag table. -/
def serEntry (e : VaultEntry) : List Nat :=
  serList serRecord e.records ++ serList serTagEntry e.tags

/-- Parse one vault entry. -/
def pEntry (l : List Nat) : Option (VaultEntry × List Nat) := do
  let (recs, l) ← pList pRecord l
  let (tags, l) ← pList pTagEntry l
  return ({ records := recs, tags := tags }, l)

/-- Serialize one key/entry binding. -/
def serKE (p : Str × VaultEntry) : List Nat :=
  serStr p.1 ++ serEntry p.2

/-- Parse one key/entry binding. -/
def pKE (l : List Nat) : Option ((Str × VaultEntry) × List Nat) := do
  let (k, l) ← pStr l
  let (e, l) ← pEntry l
  return ((k, e), l)

/-- Serialize the full vault: all entries then the logical clock. -/
def serVault (v : Vault) : List Nat :=
  serList serKE v.entries ++ [v.clock]

/-- Parse the full vault. -/
def pVault (l : List Nat) : Option (Vault × List Nat) := do
  let (es, l) ← pList pKE l
  let (ck, l) ← pNat l
  return ({ entries := es, clock := ck }, l)

/-! ### Parser/serializer round trip -/

theorem pChars_map (cs : Str) :
    ∀ r : List Nat, pChars cs.length (cs.map Char.toNat ++ r) = some (cs, r) := by
  induction cs with
  | nil => intro r; simp [pChars]
  | cons c cs ih => intro r; simp [pChars, ih, Char.ofNat_toNat]

theorem pStr_serStr (s : Str) (r : List Nat) : pStr (serStr s ++ r) = some (s, r) := by
  simp [serStr, pStr, pNat, pChars_map, Option.bind]

theorem pOptNat_serOptNat (o : Option Nat) (r : List Nat) :
    pOptNat (serOptNat o ++ r) = some (o, r) := by
  cases o <;> simp [serOptNat, pOptNat]

theorem pOptStr_serOptStr (o : Option Str) (r : List Nat) :
    pOptStr (serOptStr o ++ r) = some (o, r) := by
  cases o <;> simp [serOptStr, pOptStr, pStr_serStr]

theorem pPayload_serPayload (pl : DiffPayload) (r : List Nat) :
    pPayload (serPayload pl ++ r) = some (pl, r) := by
  cases pl <;> simp [serPayload, pPayload, pStr_serStr]

theorem pRecord_serRecord (rec : VersionRecord) (r : List Nat) :
    pRecord (serRecord rec ++ r) = some (rec, r) := by
  simp [serRecord, pRecord, List.append_assoc, pStr_serStr, pNat,
    pOptNat_serOptNat, pOptStr_serOptStr, pPayload_serPayload, Option.bind]

theorem pListAux_serList {α : Type} (f : List Nat → Option (α × List Nat))
    (ser : α → List Nat) (hf : ∀ x r, f (ser x ++ r) = some (x, r)) (l : List α) :
    ∀ r, pListAux f l.length ((l.map ser).flatten ++ r) = some (l, r) := by
  induction l with
  | nil => intro r; simp [pListAux]
  | cons x xs ih =>
    intro r
    simp [pListAux, List.append_assoc, hf, ih, Option.bind]

theorem pList_serList {α : Type} (f : List Nat → Option (α × List Nat))
    (ser : α → List Nat) (hf : ∀ x r, f (ser x ++ r) = some (x, r)) (l : List α)
    (r : List Nat) : pList f (serList ser l ++ r) = some (l, r) := by
  simp [serList, pList, pNat, List.append_assoc, pListAux_serList f ser hf l r,
    Option.bind]

theorem pTagEntry_serTagEntry (p : Str × Nat) (r : List Nat) :
    pTagEntry (serTagEntry p ++ r) = some (p, r) := by
  simp [serTagEntry, pTagEntry, List.append_assoc, pStr_serStr, pNat, Option.bind]

theorem pEntry_serEntry (e : VaultEntry) (r : List Nat) :
    pEntry (serEntry e ++ r) = some (e, r) := by
  simp [serEntry, pEntry, List.append_assoc,
    pList_serList pRecord serRecord pRecord_serRecord,
    pList_serList pTagEntry serTagEntry pTagEntry_serTagEntry, Option.bind]

theorem pKE_serKE (p : Str × VaultEntry) (r : List Nat) :
    pKE (serKE p ++ r) = some (p, r) := by
  simp [serKE, pKE, List.append_assoc, pStr_serStr, pEntry_serEntry, Option.bind]

theorem pVault_serVault (v : Vault) (r : List Nat) :
    pVault (serVault v ++ r) = some (v, r) := by
  simp [serVault, pVault, List.append_assoc,
    pList_serList pKE serKE pKE_serKE, pNat, Option.bind]

/-! ### Envelope, encryption check and the file system -/

/-- The file envelope's magic marker (spec §6: self-describing envelope). -/
def MAGICN : Nat := 7280

/-- The persisted format version (spec §6: checked on restore). -/
def FORMATV : Nat := 1

/-- Modelled from the spec (§4.6 dump / §6 file format): magic marker,
format version, optional encryption header recording the sealing password,
then the serialized vault payload. -/
def dumpBytes (v : Vault) (pw : Option Str) : List Nat :=
  MAGICN :: FORMATV :: (serOptStr pw ++ serVault v)

/-- Parse and validate the decrypted payload; `CorruptFile` if structure
validation fails (spec §4.6). -/
def parseVaultBody (body : List Nat) : Except Err Vault :=
  match pVault body with
  | some (v, []) => .ok v
  | _ => .error .corruptFile

/-- Modelled from the spec (§4.6 restore / §6): check the magic marker
(`CorruptFile`) and format version (`UnsupportedFormat`), then the
encryption header — authenticated decryption succeeds exactly when the
supplied password matches the sealing one, else `AuthenticationFailed` —
and finally parse the vault payload. -/
def restoreBytes (bytes : List Nat) (pw : Option Str) : Except Err Vault :=
  match bytes with
  | m :: fv :: rest =>
    if m ≠ MAGICN then .error .corruptFile
    else if fv ≠ FORMATV then .error .unsupportedFormat
    else
      match pOptStr rest with
      | none => .error .corruptFile
      | some (dumpPw, body) =>
        match dumpPw with
        | some p =>
          if pw = some p then parseVaultBody body else .error .authenticationFailed
        | none => parseVaultBody body
  | _ => .error .corruptFile

/-- A node of the modelled file system: a regular file with its content
bytes, or a directory. -/
inductive FSNode where
  | file (bytes : List Nat)
  | dir
deriving DecidableEq, Repr

/-- The modelled file system: path → node, first binding wins. -/
abbrev FS := List (Str × FSNode)

/-- First-match lookup of a path. -/
def fsLookup : FS → Str → Option FSNode
  | [], _ => none
  | (p', n) :: rest, p => if p' = p then some n else fsLookup rest p

/-- Remove a path's bindings. -/
def fsErase : FS → Str → FS
  | [], _ => []
  | (p', n) :: rest, p => if p' = p then fsErase rest p else (p', n) :: fsErase rest p

/-- Write a node at a path, replacing any previous one. -/
def fsWrite (fs : FS) (p : Str) (n : FSNode) : FS :=
  (p, n) :: fsErase fs p

theorem fsLookup_fsWrite_self (fs : FS) (p : Str) (n : FSNode) :
    fsLookup (fsWrite fs p n) p = some n := by
  simp [fsWrite, fsLookup]

/-- Python `os.path.exists` over the modelled file system: the empty path never
exists (as in Python, where `os.path.exists("")` is `False`). -/
def osPathExists (fs : FS) (p : Str) : Bool :=
  match p with
  | [] => false
  | _ => (fsLookup fs p).isSome

/-- Python `os.path.isfile` over the modelled file system. -/
def osPathIsFile (fs : FS) (p : Str) : Bool :=
  match fsLookup fs p with
  | some (.file _) => true
  | _ => false

/-- Modelled from the spec (§4.6 dump): serialize, optionally seal with the
password, and write the blob to the path. -/
def Vault.dump (v : Vault) (fs : FS) (path : Str) (pw : Option Str) : FS :=
  fsWrite fs path (.file (dumpBytes v pw))

/-- Modelled from the spec (§4.6 restore): read the file at the path (file-
system failures surface as `IOFailure`) and decode it. -/
def Vault.restore (fs : FS) (path : Str) (pw : Option Str) : Except Err Vault :=
  match fsLookup fs path with
  | some (.file b) => restoreBytes b pw
  | some .dir => .error .ioFailure
  | none => .error .ioFailure

/-- Modelled from the spec (§4.6 restore_or_default): an empty vault if the
path does not exist, otherwise exactly `restore` (propagating its
failures). -/
def Vault.restore_or_default (fs : FS) (path : Str) (pw : Option Str) : Except Err Vault :=
  if osPathExists fs path then Vault.restore fs path pw else .ok emptyVault

/-- Decoding a dumped blob with the same password yields the vault back. -/
theorem restoreBytes_dumpBytes (v : Vault) (pw : Option Str) :
    restoreBytes (dumpBytes v pw) pw = .ok v := by
  have hbody : parseVaultBody (serVault v) = .ok v := by
    have h := pVault_serVault v []
    rw [List.append_nil] at h
    simp [parseVaultBody, h]
  cases pw with
  | none =>
    simp [dumpBytes, restoreBytes, MAGICN, FORMATV, pOptStr_serOptStr, hbody]
  | some p =>
    simp [dumpBytes, restoreBytes, MAGICN, FORMATV, pOptStr_serOptStr, hbody]

/-- C3: for every vault state and every password (including none), dumping
the vault to a path and restoring from that path with the same password
yields a vault whose `history(key)` and `get(key, selector)` results are
identical to the pre-dump vault's for every key and every selector (the
restored vault is the pre-dump vault itself — reconstruction is exact). -/
theorem claim_C3_persistence_roundtrip (v : Vault) (fs : FS) (path : Str)
    (pw : Option Str) :
    ∃ v', Vault.restore (Vault.dump v fs path pw) path pw = .ok v' ∧
      ∀ k sel, v'.history k = v.history k ∧ v'.get k sel = v.get k sel := by
  refine ⟨v, ?_, fun k sel => ⟨rfl, rfl⟩⟩
  simp [Vault.dump, Vault.restore, fsLookup_fsWrite_self, restoreBytes_dumpBytes]

/-- C4: for every vault dumped with a password, restoring with any password
other than the one used at dump time (including no password) fails with
`AuthenticationFailed` and never returns a vault. -/
theorem claim_C4_wrong_password (v : Vault) (fs : FS) (path : Str) (pw : Str)
    (pw' : Option Str) (h : pw' ≠ some pw) :
    Vault.restore (Vault.dump v fs path (some pw)) path pw' =
      .error .authenticationFailed := by
  simp [Vault.dump, Vault.restore, fsLookup_fsWrite_self, dumpBytes, restoreBytes,
    MAGICN, FORMATV, pOptStr_serOptStr, h]

/-- Witness for C4: a concrete vault dumped with password "a" and restored
with no password fails with `AuthenticationFailed`. -/
theorem claim_C4_witness :
    (none : Option Str) ≠ some ['a'] ∧
    Vault.restore (Vault.dump emptyVault [] ['p'] (some ['a'])) ['p'] none =
      .error .authenticationFailed :=
  ⟨by decide, claim_C4_wrong_password emptyVault [] ['p'] ['a'] none (by decide)⟩

/-- C7: for every path that does not exist on the file system,
`restore_or_default(path, password)` returns an empty vault without
raising an error, and `history(key)` on that returned vault fails with
`NotFound` for every key; when the path does exist, `restore_or_default`
behaves exactly like `restore`, propagating its failures. -/
theorem claim_C7_restore_or_default (fs : FS) (path : Str) (pw : Option Str) :
    (osPathExists fs path = false →
      Vault.restore_or_default fs path pw = .ok emptyVault ∧
      ∀ k, Vault.history emptyVault k = .error .notFound) ∧
    (osPathExists fs path = true →
      Vault.restore_or_default fs path pw = Vault.restore fs path pw) := by
  constructor
  · intro hne
    refine ⟨by simp [Vault.restore_or_default, hne], ?_⟩
    intro k
    simp [Vault.history, emptyVault, lookupE]
  · intro hex
    simp [Vault.restore_or_default, hex]

/-- Witness for C7: a missing path yields the empty vault whose history is
`NotFound`, and an existing path behaves like `restore`. -/
theorem claim_C7_witness :
    (Vault.restore_or_default [] ['p'] none = .ok emptyVault ∧
      Vault.history emptyVault ['x'] = .error .notFound) ∧
    Vault.restore_or_default [(['q'], FSNode.dir)] ['q'] none =
      Vault.restore [(['q'], FSNode.dir)] ['q'] none := by
  constructor
  · have h := (claim_C7_restore_or_default [] ['p'] none).1 (by decide)
    exact ⟨h.1, h.2 ['x']⟩
  · exact (claim_C7_restore_or_default [(['q'], FSNode.dir)] ['q'] none).2 (by decide)

/-! ## The Python layer (`src/promptpro/__init__.py`, `src/promptpro/cli.py`)

These definitions are embedded from the Python source in `src/`, which is
authoritative for them.  Note that `__init__.py` defines `class
PromptManager` unconditionally after the import block, so it shadows the
`PromptManager = PySyncPromptManager` alias and is the class callers get. -/

/-- Python truthiness of an optional string: `None` and `""` are falsy. -/
def strOptTruthy : Option Str → Bool
  | none => false
  | some s => !s.isEmpty

/-- An error escaping `PromptManager.__init__`: the explicit `ValueError`
raised for a non-file path, or a propagated core error. -/
inductive InitErr where
  | valueError
  | coreErr (e : Err)
deriving DecidableEq, Repr

/-- The Python `PromptManager` wrapper: it holds the `_rust_vault` it
constructed. -/
structure PromptManager where
  vault : Vault
deriving DecidableEq, Repr

/-- Embedded from `src/promptpro/__init__.py` lines 40-50
(`PromptManager.__init__`): if `vault_bin_file` is truthy and the path
exists, a non-regular-file path raises `ValueError` and otherwise the vault
is loaded with `restore_or_default` (errors propagate); in every other case
a fresh vault is constructed.  `PromptVault()` with no path is modelled as
the empty vault (the source comments it "Create new vault"; the Rust
constructor itself is not in `src/`). -/
def PromptManager.init (fs : FS) (vault_bin_file : Option Str)
    (password : Option Str) : Except InitErr PromptManager :=
  if strOptTruthy vault_bin_file && osPathExists fs (vault_bin_file.getD []) then
    if !osPathIsFile fs (vault_bin_file.getD []) then .error .valueError
    else
      match Vault.restore_or_default fs (vault_bin_file.getD []) password with
      | .ok v => .ok ⟨v⟩
      | .error e => .error (.coreErr e)
  else .ok ⟨emptyVault⟩

/-- Embedded from `src/promptpro/__init__.py` lines 62-85: the wrapper
methods call straight through to the vault, adding no logic. -/
def PromptManager.addM (m : PromptManager) (k c : Str) : Except Err PromptManager :=
  (m.vault.add k c).map PromptManager.mk

/-- Method `PromptManager.update` — straight call-through. -/
def PromptManager.updateM (m : PromptManager) (k c : Str) (msg : Option Str) :
    Except Err PromptManager :=
  (m.vault.update k c msg).map PromptManager.mk

/-- Method `PromptManager.tag` — straight call-through. -/
def PromptManager.tagM (m : PromptManager) (k t : Str) (n : Nat) :
    Except Err PromptManager :=
  (m.vault.tag k t n).map PromptManager.mk

/-- Method `PromptManager.get_prompt` — straight call-through. -/
def PromptManager.get_prompt (m : PromptManager) (k : Str) (sel : Selector) :
    Except Err Str :=
  m.vault.get k sel

/-- Method `PromptManager.history` — straight call-through (the `VersionMeta`
rewrapping in Python copies fields unchanged). -/
def PromptManager.historyM (m : PromptManager) (k : Str) :
    Except Err (List VersionMeta) :=
  m.vault.history k

/-- Outcome of a process-level call: normal completion, or process
termination via `sys.exit`. -/
inductive ProcOutcome where
  | completed
  | exited (code : Nat)
deriving DecidableEq, Repr

/-- Embedded from `src/promptpro/cli.py` lines 11-27 (`run_cli`): the
underlying CLI call either completes or raises; on any raised error
`run_cli` prints to stderr and calls `sys.exit(1)`, terminating the
process. -/
def run_cli (result : Except Err Unit) : ProcOutcome :=
  match result with
  | .ok _ => .completed
  | .error _ => .exited 1

/-! ## The singleton accessor under interleaving (C8)

`PromptManager.get_singleton` (`src/promptpro/__init__.py` lines 53-59) is

    if PromptManager._instance is None:
        PromptManager._instance = PromptManager(vault_bin_file, password)
    return PromptManager._instance

Each line is one observable step; CPython preempts between bytecodes (and
the constructor may block on file I/O), so other threads can run between
the `None`-check and the assignment.  Constructed manager instances are
numbered in construction order. -/

/-- The shared state: the `PromptManager._instance` class attribute and the
number of `PromptManager(...)` constructions performed so far. -/
structure SingletonState where
  instanceVar : Option Nat
  constructed : Nat
deriving DecidableEq, Repr

/-- Program counter of one thread inside `get_singleton`. -/
inductive ThreadPC where
  | checkNone
  | construct
  | ret
  | finished (got : Option Nat)
deriving DecidableEq, Repr

/-- A configuration: shared state plus each thread's program counter. -/
structure SingletonConfig where
  state : SingletonState
  threads : List ThreadPC
deriving DecidableEq, Repr

/-- One atomic step of thread `i` of `get_singleton`: the `None`-check
reads `_instance`; the construct step runs the constructor and assigns the
fresh instance to `_instance`; the return step reads `_instance`. -/
def stepThread (cfg : SingletonConfig) (i : Nat) : SingletonConfig :=
  match cfg.threads[i]? with
  | none => cfg
  | some pc =>
    match pc with
    | .checkNone =>
      let next := if cfg.state.instanceVar = none then ThreadPC.construct else ThreadPC.ret
      { cfg with threads := cfg.threads.set i next }
    | .construct =>
      { state := { instanceVar := some cfg.state.constructed,
                   constructed := cfg.state.constructed + 1 },
        threads := cfg.threads.set i .ret }
    | .ret =>
      { cfg with threads := cfg.threads.set i (.finished cfg.state.instanceVar) }
    | .finished _ => cfg

/-- Run a schedule (a list of thread indices, each taking one step). -/
def runSched (cfg : SingletonConfig) : List Nat → SingletonConfig
  | [] => cfg
  | i :: rest => runSched (stepThread cfg i) rest

/-- All threads at the start of `get_singleton`, `_instance` unset. -/
def initialConfig (nThreads : Nat) : SingletonConfig :=
  ⟨⟨none, 0⟩, List.replicate nThreads .checkNone⟩

/-- A full `get_singleton` call executed without interleaving (its steps
run consecutively), as the non-concurrent semantics. -/
def getSingletonCall (s : SingletonState) : Option Nat × SingletonState :=
  match s.instanceVar with
  | some i => (some i, s)
  | none => (some s.constructed, ⟨some s.constructed, s.constructed + 1⟩)

/-- Counterexample to C8: under concurrent first access both threads pass
the `None`-check before either assigns, so TWO manager instances are
constructed, and the two callers even receive different instances — the
unsynchronized check-then-act in `get_singleton` is not safe under
concurrent first access. -/
theorem claim_C8_counterexample :
    (runSched (initialConfig 2) [0, 1, 1, 1, 0, 0]).state.constructed = 2 ∧
    (runSched (initialConfig 2) [0, 1, 1, 1, 0, 0]).threads =
      [.finished (some 1), .finished (some 0)] := by
  decide

/-- C8 amended: the singleton is lazily initialized — a call that finds
`_instance` unset constructs the instance, and every call that finds it set
returns that same shared instance without constructing anything; with
non-overlapping calls exactly one instance is ever constructed.  Under
concurrent first access, however, the unsynchronized check-then-act can
construct two instances (see the counterexample). -/
theorem claim_C8_lazy_singleton (s : SingletonState) (i n : Nat) :
    getSingletonCall ⟨none, n⟩ = (some n, ⟨some n, n + 1⟩) ∧
    (s.instanceVar = some i → getSingletonCall s = (some i, s)) ∧
    ((runSched (initialConfig 2) [0, 0, 0, 1, 1, 1]).state.constructed = 1 ∧
     (runSched (initialConfig 2) [0, 0, 0, 1, 1, 1]).threads =
       [.finished (some 0), .finished (some 0)]) := by
  refine ⟨rfl, ?_, by decide⟩
  intro hi
  obtain ⟨iv, ct⟩ := s
  simp only at hi
  rw [hi]
  rfl

/-- Witness for C8 (amended): a call finding instance 5 already set
returns it and leaves the state unchanged. -/
theorem claim_C8_witness :
    (⟨some 5, 1⟩ : SingletonState).instanceVar = some 5 ∧
    getSingletonCall ⟨some 5, 1⟩ = (some 5, ⟨some 5, 1⟩) :=
  ⟨rfl, (claim_C8_lazy_singleton ⟨some 5, 1⟩ 5 0).2.1 rfl⟩

/-- Counterexample to C9: a public operation can terminate the process.
`update` on an empty vault fails with the typed error `NotFound`, and the
CLI entry point `run_cli` (part of the cited surface) turns that failure
into `sys.exit(1)` — the process exits instead of the caller deciding. -/
theorem claim_C9_counterexample :
    Vault.update emptyVault ['k'] ['c'] none = .error .notFound ∧
    run_cli (Except.map (fun _ => ()) (Vault.update emptyVault ['k'] ['c'] none)) =
      .exited 1 ∧
    ProcOutcome.exited 1 ≠ .completed :=
  ⟨rfl, rfl, by decide⟩

/-- C9 amended: core errors are surfaced to callers as typed failures and
the manager wrapper methods propagate the core's result or error
unchanged; the exception is the CLI entry point `run_cli`, which catches
every error and terminates the process with exit code 1 (printing the
error) instead of propagating it. -/
theorem claim_C9_error_propagation (m : PromptManager) (k c t : Str)
    (msg : Option Str) (n : Nat) (sel : Selector) (e : Err) :
    (m.addM k c = .error e ↔ m.vault.add k c = .error e) ∧
    (m.updateM k c msg = .error e ↔ m.vault.update k c msg = .error e) ∧
    (m.tagM k t n = .error e ↔ m.vault.tag k t n = .error e) ∧
    m.get_prompt k sel = m.vault.get k sel ∧
    m.historyM k = m.vault.history k ∧
    run_cli (.ok ()) = .completed ∧
    run_cli (.error e) = .exited 1 := by
  refine ⟨?_, ?_, ?_, rfl, rfl, rfl, rfl⟩
  · cases h : m.vault.add k c <;> simp [PromptManager.addM, h, Except.map]
  · cases h : m.vault.update k c msg <;> simp [PromptManager.updateM, h, Except.map]
  · cases h : m.vault.tag k t n <;> simp [PromptManager.tagM, h, Except.map]

/-- C10: `PromptManager(vault_bin_file, password)` raises `ValueError` when
the path exists but is not a regular file; and when the path is given but
does not exist, it silently constructs a fresh empty vault — a caller
passing a mistyped path gets an empty manager with no error. -/
theorem claim_C10_init_behavior (fs : FS) (p : Str) (password : Option Str) :
    (osPathExists fs p = true → osPathIsFile fs p = false →
      PromptManager.init fs (some p) password = .error .valueError) ∧
    (osPathExists fs p = false →
      PromptManager.init fs (some p) password = .ok ⟨emptyVault⟩) := by
  constructor
  · intro hex hnf
    have hne : p ≠ [] := by
      intro h0
      rw [h0] at hex
      simp [osPathExists] at hex
    have ht : strOptTruthy (some p) = true := by
      simp [strOptTruthy, List.isEmpty_iff, hne]
    simp [PromptManager.init, ht, hex, hnf]
  · intro hne
    simp [PromptManager.init, hne]

/-- Witness for C10: a directory path raises `ValueError`; a missing path
yields an empty manager. -/
theorem claim_C10_witness :
    (osPathExists [(['q'], FSNode.dir)] ['q'] = true ∧
     osPathIsFile [(['q'], FSNode.dir)] ['q'] = false ∧
     PromptManager.init [(['q'], FSNode.dir)] (some ['q']) none = .error .valueError) ∧
    (osPathExists [] ['p'] = false ∧
     PromptManager.init [] (some ['p']) none = .ok ⟨emptyVault⟩) :=
  ⟨⟨rfl, rfl, (claim_C10_init_behavior [(['q'], FSNode.dir)] ['q'] none).1 rfl rfl⟩,
   ⟨rfl, (claim_C10_init_behavior [] ['p'] none).2 rfl⟩⟩

end PromptPro
